import Mathlib

/-!
Verification of the Huffman compressor with encrypted header
(HuffmanEncoding.cpp).  The C++ source is shallowly embedded: the
Stanford `Map<ext_char, int>` is modelled as a strictly key-sorted
association list (the Stanford Map is a binary search tree that
iterates its keys in ascending order), the Stanford `PriorityQueue`
as a priority-sorted list whose ties are broken first-in-first-out
(the documented behaviour of the library), and the bit channel as a
`List Bool`.
-/

/-- Modelled from the spec: `HuffmanTypes.h` is not part of the sources;
the spec fixes the end-of-data sentinel as the out-of-band value 256. -/
def PSEUDO_EOF : Nat := 256

/-- Modelled from the spec: `HuffmanTypes.h` is not part of the sources;
`NOT_A_CHAR` is the marker stored in internal tree nodes (value 257). -/
def NOT_A_CHAR : Nat := 257

/-! ### Stanford `Map` model: strictly sorted association list -/

/-- Lookup in the association-list model of the Stanford `Map`. -/
def mapLookup {α : Type} : List (Nat × α) → Nat → Option α
  | [], _ => none
  | e :: rest, k => if k = e.1 then some e.2 else mapLookup rest k

/-- `Map::operator[]` read with the type's default value. -/
def mapGetD {α : Type} (m : List (Nat × α)) (k : Nat) (d : α) : α :=
  (mapLookup m k).getD d

/-- `Map::containsKey`. -/
def mapContainsKey {α : Type} (m : List (Nat × α)) (k : Nat) : Bool :=
  (mapLookup m k).isSome

/-- Insert-or-replace, keeping the list sorted by key
(`Map::operator[]` assignment). -/
def mapPut {α : Type} : List (Nat × α) → Nat → α → List (Nat × α)
  | [], k, v => [(k, v)]
  | e :: rest, k, v =>
    if k < e.1 then (k, v) :: e :: rest
    else if k = e.1 then (k, v) :: rest
    else e :: mapPut rest k v

/-- Well-formedness of the map model: keys strictly ascending. -/
def mapWF {α : Type} (m : List (Nat × α)) : Prop :=
  m.Pairwise (fun a b => a.1 < b.1)

instance mapWF_decidable {α : Type} (m : List (Nat × α)) : Decidable (mapWF m) :=
  decidable_of_iff (m.Pairwise fun a b => a.1 < b.1) (by rw [mapWF])

/-! ### Password stream (`PasswordStream`)

Modelled from the spec: `std::hash<string>` and
`std::default_random_engine` are standard-library collaborators whose
exact algorithms the spec leaves open ("any stable, deterministic
string hash is acceptable", §4.6); they are modelled as a concrete
deterministic string hash feeding a minimal-standard linear
congruential generator.  Every theorem below uses only the property
the spec requires: the same password yields the same bit sequence
from a fresh generator. -/

/-- Deterministic string hash standing in for `std::hash<string>`. -/
def strHash (s : String) : Nat :=
  s.foldl (fun h c => h * 31 + c.toNat) 5381

/-- Seed of the generator, normalised into the LCG's modulus range. -/
def psSeed (pw : String) : Nat :=
  max 1 (strHash pw % 2147483647)

/-- Generator state after `n` advances (`engine()` calls). -/
def psState (pw : String) : Nat → Nat
  | 0 => psSeed pw
  | n + 1 => 16807 * psState pw n % 2147483647

/-- The pseudo-random bit XORed against the `n`-th processed bit:
`engine() & 1` at the `n`-th call of `PasswordStream::nextBit`. -/
def psBit (pw : String) (n : Nat) : Bool :=
  psState pw (n + 1) % 2 = 1

/-! ### Bit-channel primitives -/

/-- Modelled from the spec: the bit channel is a black-box collaborator
that reads "one bit at a time ... with an end-of-stream sentinel"
(§1, §6).  `ibstream::readBit` returns the `EOF` sentinel (-1) once
the underlying stream is exhausted; the C++ callers bind that result
to a `bool`, and `bool(-1)` is `true`, so an exhausted channel is
modelled as yielding the bit `true` forever. -/
def readBitE : List Bool → Bool × List Bool
  | [] => (true, [])
  | b :: bs => (b, bs)

/-- Big-endian bits of `x`: bit `w-1` first, bit 0 last
(the `for (int i = w-1; i >= 0; i--)` write loops). -/
def natBits (x : Nat) : Nat → List Bool
  | 0 => []
  | w + 1 => x.testBit w :: natBits x w

/-- The encrypted bits the header writer emits for one `w`-bit field
whose value is `x`, when the password stream counter stands at `k`. -/
def encIntBits (pw : String) (k : Nat) (x : Nat) : Nat → List Bool
  | 0 => []
  | w + 1 => xor (x.testBit w) (psBit pw k) :: encIntBits pw (k + 1) x w

/-- The header reader's field loop: reads `w` bits, decrypts each with
the password stream (counter starting at `k`) and accumulates the
value most-significant-bit first. -/
def decIntLoop (pw : String) : Nat → Nat → Nat → List Bool → Nat × List Bool
  | _, 0, acc, bits => (acc, bits)
  | k, w + 1, acc, bits =>
    let r := readBitE bits
    let d := xor r.1 (psBit pw k)
    decIntLoop pw (k + 1) w (2 * acc + (if d then 1 else 0)) r.2

/-- XOR of a plain bit list with the password stream starting at
counter `k` (used to state the header layout the spec describes). -/
def xorEncrypt (pw : String) : Nat → List Bool → List Bool
  | _, [] => []
  | k, b :: bs => xor b (psBit pw k) :: xorEncrypt pw (k + 1) bs

/-! ### Encoding tree (`Node`) and the Stanford `PriorityQueue` -/

/-- The C++ `Node` with `nullptr` made explicit: `nil` is the null
pointer, `node ch w z o` a node with `character`, `weight` and the
`zero`/`one` children. -/
inductive Node : Type where
  | nil : Node
  | node (character : Nat) (weight : Nat) (zero one : Node) : Node
deriving DecidableEq, Repr

/-- `node->weight` (never dereferenced on null in the modelled runs). -/
def Node.weight : Node → Nat
  | .nil => 0
  | .node _ w _ _ => w

/-- Stanford `PriorityQueue` model: list sorted by ascending priority;
`enqueue` places a new element after every element of priority `≤ p`,
which is the library's documented first-in-first-out tie-break. -/
def pqEnqueue : List (Nat × Node) → Nat → Node → List (Nat × Node)
  | [], p, v => [(p, v)]
  | e :: rest, p, v =>
    if e.1 ≤ p then e :: pqEnqueue rest p v else (p, v) :: e :: rest

/-- `fillQueue`: one leaf per map entry, enqueued at its frequency,
iterating the map in its (ascending-key) order. -/
def fillQueue (T : List (Nat × Nat)) : List (Nat × Node) :=
  T.foldl (fun q e => pqEnqueue q e.2 (Node.node e.1 e.2 .nil .nil)) []

/-- The `while (queue.size() > 1)` merge loop of `buildEncodingTree`.
The first argument is a structural-recursion gas that callers set to
the queue length (each iteration shrinks the queue by one).  A final
`dequeue` on an empty queue raises a library error in C++; that
unreachable case is modelled as `Node.nil`. -/
def buildLoop : Nat → List (Nat × Node) → Node
  | _, [] => .nil
  | _, [e] => e.2
  | 0, _ => .nil
  | gas + 1, e1 :: e2 :: rest =>
    buildLoop gas
      (pqEnqueue rest (e1.2.weight + e2.2.weight)
        (Node.node NOT_A_CHAR (e1.2.weight + e2.2.weight) e1.2 e2.2))

/-- `buildEncodingTree`. -/
def buildEncodingTree (T : List (Nat × Nat)) : Node :=
  buildLoop (fillQueue T).length (fillQueue T)

/-- `fillMap`: depth-first walk recording, at each leaf (both children
null), the accumulated root-to-leaf path.  The C++ path is a string of
the characters `'0'`/`'1'` consumed only through `c == '1'`; it is
modelled directly as a list of bits (`true` = `'1'`). -/
def fillMap (m : List (Nat × List Bool)) : Node → List Bool → List (Nat × List Bool)
  | .nil, _ => m
  | .node ch _ z o, path =>
    if z = Node.nil ∧ o = Node.nil then mapPut m ch path
    else fillMap (fillMap m z (path ++ [false])) o (path ++ [true])

/-- Characters stored in the leaves of a tree, in `fillMap` order. -/
def leafChars : Node → List Nat
  | .nil => []
  | .node ch _ z o =>
    if z = Node.nil ∧ o = Node.nil then [ch]
    else leafChars z ++ leafChars o

/-! ### Frequency table, encoder, decoder -/

/-- `getFrequencyTable`: count each byte of the input, then set the
sentinel's count to 1. -/
def getFrequencyTable (S : List Nat) : List (Nat × Nat) :=
  mapPut (S.foldl (fun m ch => mapPut m ch (mapGetD m ch 0 + 1)) []) PSEUDO_EOF 1

/-- The encoder's per-byte loop: look each byte up in the code table
(`Map::operator[]`, which yields the empty string for absent keys) and
emit its bits. -/
def encodeBody (m : List (Nat × List Bool)) : List Nat → List Bool
  | [] => []
  | ch :: rest => mapGetD m ch [] ++ encodeBody m rest

/-- `encodeFile`: derive the code table from the tree, encode every
input byte, then emit the sentinel's code. -/
def encodeFile (S : List Nat) (tree : Node) : List Bool :=
  let m := fillMap [] tree []
  encodeBody m S ++ mapGetD m PSEUDO_EOF []

/-- The `while (true)` loop of `decodeFile`, with a fuel bound on loop
iterations (`none` = the modelled run was cut off, or the C++ run
dereferenced a null cursor).  At a leaf: stop on the sentinel, else
emit the character and restart from the root.  At an internal node:
read one bit (an exhausted channel yields `true`, see `readBitE`) and
descend. -/
def decodeLoop : Nat → Node → Node → List Bool → Option (List Nat)
  | 0, _, _, _ => none
  | fuel + 1, root, curr, bits =>
    match curr with
    | .nil => none
    | .node ch _ z o =>
      if z = Node.nil ∧ o = Node.nil then
        if ch = PSEUDO_EOF then some []
        else (decodeLoop fuel root root bits).map (fun out => ch :: out)
      else
        let r := readBitE bits
        decodeLoop fuel root (if r.1 then o else z) r.2

/-- `decodeFile`, starting the cursor at the root. -/
def decodeFile (tree : Node) (bits : List Bool) (fuel : Nat) : Option (List Nat) :=
  decodeLoop fuel tree tree bits

/-! ### Header codec -/

/-- The encrypted bits written for the non-sentinel entries, starting
at password-stream counter `k`: 8 bits of symbol, then 32 bits of
frequency, per entry. -/
def encEntries (pw : String) : Nat → List (Nat × Nat) → List Bool
  | _, [] => []
  | k, e :: rest =>
    encIntBits pw k e.1 8 ++ encIntBits pw (k + 8) e.2 32 ++ encEntries pw (k + 40) rest

/-- `writeEncryptedFileHeader`: error (`none`) when the table lacks the
sentinel; otherwise the 32-bit entry count (`size() - 1`) followed by
the non-sentinel entries, every bit XORed with the password stream. -/
def writeEncryptedFileHeader (T : List (Nat × Nat)) (pw : String) : Option (List Bool) :=
  if mapContainsKey T PSEUDO_EOF then
    some (encIntBits pw 0 (T.length - 1) 32 ++
      encEntries pw 32 (T.filter (fun e => e.1 ≠ PSEUDO_EOF)))
  else none

/-- The reader's entry loop: for each of `n` entries read 8 decrypted
bits of symbol and 32 of frequency and store them with `result[ch] = freq`. -/
def readEntries (pw : String) : Nat → Nat → List (Nat × Nat) → List Bool →
    List (Nat × Nat) × List Bool
  | _, 0, m, bits => (m, bits)
  | k, n + 1, m, bits =>
    let rc := decIntLoop pw k 8 0 bits
    let rf := decIntLoop pw (k + 8) 32 0 rc.2
    readEntries pw (k + 40) n (mapPut m rc.1 rf.1) rf.2

/-- `readEncryptedFileHeader`: read the 32-bit entry count, then that
many entries, then set the sentinel's count to 1.  Returns the table
and the bits left on the channel. -/
def readEncryptedFileHeader (bits : List Bool) (pw : String) :
    List (Nat × Nat) × List Bool :=
  let rn := decIntLoop pw 0 32 0 bits
  let re := readEntries pw 32 rn.1 [] rn.2
  (mapPut re.1 PSEUDO_EOF 1, re.2)

/-! ### Orchestrators -/

/-- `compress`: frequency table, tree, encrypted header, then payload
(`none` only if the header writer errors, which cannot happen since
the table always holds the sentinel). -/
def compress (S : List Nat) (pw : String) : Option (List Bool) :=
  let T := getFrequencyTable S
  let root := buildEncodingTree T
  (writeEncryptedFileHeader T pw).map (fun h => h ++ encodeFile S root)

/-- `decompress`: read and decrypt the header, rebuild the tree from
the recovered table, decode the remaining bits. -/
def decompress (bits : List Bool) (pw : String) (fuel : Nat) : Option (List Nat) :=
  let r := readEncryptedFileHeader bits pw
  decodeFile (buildEncodingTree r.1) r.2 fuel

/-- Paths through a tree: `leadsTo t p c` states that following `p`
from `t` (`false` = `zero` child, `true` = `one` child) ends at a leaf
holding character `c`. -/
inductive leadsTo : Node → List Bool → Nat → Prop where
  | leaf (c w : Nat) : leadsTo (.node c w .nil .nil) [] c
  | zero {z p c} (ch w : Nat) (o : Node) :
      leadsTo z p c → leadsTo (.node ch w z o) (false :: p) c
  | one {o p c} (ch w : Nat) (z : Node) :
      leadsTo o p c → leadsTo (.node ch w z o) (true :: p) c

/-- Proper-prefix relation on bit sequences. -/
def properPrefixOf (p q : List Bool) : Prop :=
  ∃ tl, tl ≠ [] ∧ q = p ++ tl

/-! ### Lemmas about the map model -/

theorem mapLookup_put_self {α : Type} (m : List (Nat × α)) (k : Nat) (v : α) :
    mapLookup (mapPut m k v) k = some v := by
  induction m with
  | nil => simp [mapPut, mapLookup]
  | cons e rest ih =>
    by_cases h1 : k < e.1
    · simp [mapPut, h1, mapLookup]
    · by_cases h2 : k = e.1
      · simp [mapPut, h1, h2, mapLookup]
      · simp [mapPut, h1, h2, mapLookup, ih]

theorem mapLookup_put_ne {α : Type} (m : List (Nat × α)) {k k' : Nat} (v : α)
    (h : k ≠ k') : mapLookup (mapPut m k' v) k = mapLookup m k := by
  induction m with
  | nil => simp [mapPut, mapLookup, h]
  | cons e rest ih =>
    by_cases h1 : k' < e.1
    · simp [mapPut, h1, mapLookup, h]
    · by_cases h2 : k' = e.1
      · subst h2; simp [mapPut, h1, mapLookup, h]
      · simp [mapPut, h1, h2, mapLookup, ih]

theorem mem_mapPut {α : Type} {m : List (Nat × α)} {k : Nat} {v : α} {e : Nat × α}
    (h : e ∈ mapPut m k v) : e = (k, v) ∨ e ∈ m := by
  induction m with
  | nil => simpa [mapPut] using h
  | cons a rest ih =>
    by_cases h1 : k < a.1
    · rw [mapPut, if_pos h1] at h
      rcases List.mem_cons.mp h with h | h
      · exact Or.inl h
      · exact Or.inr h
    · by_cases h2 : k = a.1
      · rw [mapPut, if_neg h1, if_pos h2] at h
        rcases List.mem_cons.mp h with h | h
        · exact Or.inl h
        · exact Or.inr (List.mem_cons_of_mem _ h)
      · rw [mapPut, if_neg h1, if_neg h2] at h
        rcases List.mem_cons.mp h with h | h
        · exact Or.inr (h ▸ List.mem_cons_self _ _)
        · rcases ih h with h | h
          · exact Or.inl h
          · exact Or.inr (List.mem_cons_of_mem _ h)

theorem mapWF_put {α : Type} {m : List (Nat × α)} (hwf : mapWF m) (k : Nat) (v : α) :
    mapWF (mapPut m k v) := by
  induction m with
  | nil => simp [mapPut, mapWF]
  | cons a rest ih =>
    rw [mapWF, List.pairwise_cons] at hwf
    by_cases h1 : k < a.1
    · rw [mapWF]; rw [mapPut, if_pos h1]
      refine List.pairwise_cons.mpr ⟨?_, ?_⟩
      · intro b hb
        rcases List.mem_cons.mp hb with hb | hb
        · simp [hb, h1]
        · exact Nat.lt_trans h1 (hwf.1 b hb)
      · exact List.pairwise_cons.mpr hwf
    · by_cases h2 : k = a.1
      · rw [mapWF]; rw [mapPut, if_neg h1, if_pos h2]
        exact List.pairwise_cons.mpr ⟨fun b hb => h2 ▸ hwf.1 b hb, hwf.2⟩
      · have h3 : a.1 < k := by omega
        rw [mapWF]; rw [mapPut, if_neg h1, if_neg h2]
        refine List.pairwise_cons.mpr ⟨?_, ih hwf.2⟩
        intro b hb
        rcases mem_mapPut hb with hb | hb
        · simp [hb, h3]
        · exact hwf.1 b hb

theorem mapLookup_mem {α : Type} {m : List (Nat × α)} {k : Nat} {v : α}
    (h : mapLookup m k = some v) : (k, v) ∈ m := by
  induction m with
  | nil => simp [mapLookup] at h
  | cons a rest ih =>
    rw [mapLookup] at h
    by_cases h1 : k = a.1
    · rw [if_pos h1] at h
      have h2 := Option.some.inj h
      exact List.mem_cons.mpr (Or.inl (Prod.ext_iff.mpr ⟨h1, h2.symm⟩))
    · rw [if_neg h1] at h
      exact List.mem_cons_of_mem _ (ih h)

theorem mapLookup_eq_none {α : Type} {m : List (Nat × α)} {k : Nat}
    (h : ∀ e ∈ m, k ≠ e.1) : mapLookup m k = none := by
  induction m with
  | nil => rfl
  | cons a rest ih =>
    rw [mapLookup, if_neg (h a (by simp))]
    exact ih fun e he => h e (List.mem_cons_of_mem _ he)

theorem mapPut_eq_self {α : Type} {m : List (Nat × α)} (hwf : mapWF m) {k : Nat}
    {v : α} (h : mapLookup m k = some v) : mapPut m k v = m := by
  induction m with
  | nil => simp [mapLookup] at h
  | cons a rest ih =>
    rw [mapWF, List.pairwise_cons] at hwf
    rw [mapLookup] at h
    by_cases h1 : k = a.1
    · rw [if_pos h1] at h
      rw [mapPut, if_neg (by omega), if_pos h1]
      cases a
      simp_all
    · rw [if_neg h1] at h
      have hk : a.1 < k := by
        have := hwf.1 _ (mapLookup_mem h)
        exact this
      rw [mapPut, if_neg (by omega), if_neg h1, ih hwf.2 h]

theorem mapPut_append {α : Type} {m : List (Nat × α)} {k : Nat} {v : α}
    (h : ∀ e ∈ m, e.1 < k) : mapPut m k v = m ++ [(k, v)] := by
  induction m with
  | nil => rfl
  | cons a rest ih =>
    have ha : a.1 < k := h a (by simp)
    rw [mapPut, if_neg (by omega), if_neg (by omega)]
    rw [ih fun e he => h e (List.mem_cons_of_mem _ he)]
    rfl

theorem mapPut_append_replace {α : Type} {m : List (Nat × α)} {k : Nat} {v₀ v : α}
    (h : ∀ e ∈ m, e.1 < k) : mapPut (m ++ [(k, v₀)]) k v = m ++ [(k, v)] := by
  induction m with
  | nil => simp [mapPut]
  | cons a rest ih =>
    have ha : a.1 < k := h a (by simp)
    rw [List.cons_append, mapPut, if_neg (by omega), if_neg (by omega)]
    rw [ih fun e he => h e (List.mem_cons_of_mem _ he)]
    rfl

theorem foldl_mapPut_sorted {α : Type} :
    ∀ (l m : List (Nat × α)), mapWF (m ++ l) →
      l.foldl (fun acc e => mapPut acc e.1 e.2) m = m ++ l := by
  intro l
  induction l with
  | nil => intro m _; simp
  | cons b l ih =>
    intro m hwf
    have hmb : ∀ e ∈ m, e.1 < b.1 := by
      intro e he
      have := (List.pairwise_append.mp hwf).2.2 e he b (by simp)
      exact this
    rw [List.foldl_cons]
    have hput : mapPut m b.1 b.2 = m ++ [b] := by
      rw [mapPut_append hmb]
    rw [hput]
    have hwf2 : mapWF ((m ++ [b]) ++ l) := by
      rw [List.append_assoc]
      simpa using hwf
    rw [ih (m ++ [b]) hwf2]
    simp

theorem sorted_length_le :
    ∀ (l : List Nat) (lo n : Nat), l.Pairwise (· < ·) →
      (∀ x ∈ l, lo ≤ x ∧ x < n) → l.length ≤ n - lo := by
  intro l
  induction l with
  | nil => intro lo n _ _; simp
  | cons a l ih =>
    intro lo n hp hb
    rw [List.pairwise_cons] at hp
    have ha := hb a (by simp)
    have hl : ∀ x ∈ l, a + 1 ≤ x ∧ x < n := by
      intro x hx
      exact ⟨hp.1 x hx, (hb x (List.mem_cons_of_mem _ hx)).2⟩
    have := ih (a + 1) n hp.2 hl
    simp only [List.length_cons]
    omega

/-! ### Bit-field round trips -/

theorem natBits_length (x : Nat) : ∀ w, (natBits x w).length = w := by
  intro w
  induction w with
  | zero => rfl
  | succ w ih => simp [natBits, ih]

theorem encIntBits_length (pw : String) (x : Nat) :
    ∀ (w k : Nat), (encIntBits pw k x w).length = w := by
  intro w
  induction w with
  | zero => intro k; rfl
  | succ w ih => intro k; simp [encIntBits, ih]

theorem encIntBits_eq_xorEncrypt (pw : String) (x : Nat) :
    ∀ (w k : Nat), encIntBits pw k x w = xorEncrypt pw k (natBits x w) := by
  intro w
  induction w with
  | zero => intro k; rfl
  | succ w ih => intro k; simp [encIntBits, natBits, xorEncrypt, ih]

theorem xorEncrypt_append (pw : String) :
    ∀ (a b : List Bool) (k : Nat),
      xorEncrypt pw k (a ++ b) = xorEncrypt pw k a ++ xorEncrypt pw (k + a.length) b := by
  intro a
  induction a with
  | nil => intro b k; simp [xorEncrypt]
  | cons x a ih =>
    intro b k
    simp only [List.cons_append, xorEncrypt, List.append_eq, ih, List.length_cons]
    have hk : k + (a.length + 1) = k + 1 + a.length := by omega
    rw [hk]

theorem decIntLoop_enc (pw : String) (x : Nat) :
    ∀ (w k acc : Nat) (rest : List Bool),
      decIntLoop pw k w acc (encIntBits pw k x w ++ rest) =
        (acc * 2 ^ w + x % 2 ^ w, rest) := by
  intro w
  induction w with
  | zero =>
    intro k acc rest
    simp [encIntBits, decIntLoop, Nat.mod_one]
  | succ w ih =>
    intro k acc rest
    rw [encIntBits, List.cons_append, decIntLoop]
    simp only [readBitE]
    have hd : xor (xor (x.testBit w) (psBit pw k)) (psBit pw k) = x.testBit w := by
      cases x.testBit w <;> cases psBit pw k <;> rfl
    simp only [hd]
    rw [ih (k + 1)]
    have hx : x % 2 ^ (w + 1) = x % 2 ^ w + 2 ^ w * (x / 2 ^ w % 2) := by
      rw [pow_succ]
      exact Nat.mod_mul
    have ht : (if x.testBit w = true then 1 else 0 : Nat) = x / 2 ^ w % 2 := by
      rcases Nat.mod_two_eq_zero_or_one (x / 2 ^ w) with h2 | h2 <;>
        simp [Nat.testBit_to_div_mod, h2]
    have harith : (2 * acc + (if x.testBit w = true then 1 else 0)) * 2 ^ w + x % 2 ^ w
        = acc * 2 ^ (w + 1) + x % 2 ^ (w + 1) := by
      rw [ht, hx, pow_succ]
      ring
    rw [harith]

theorem readEntries_enc (pw : String) :
    ∀ (E : List (Nat × Nat)) (k : Nat) (m : List (Nat × Nat)) (rest : List Bool),
      (∀ e ∈ E, e.1 < 2 ^ 8 ∧ e.2 < 2 ^ 32) →
      readEntries pw k E.length (m) (encEntries pw k E ++ rest) =
        (E.foldl (fun acc e => mapPut acc e.1 e.2) m, rest) := by
  intro E
  induction E with
  | nil => intro k m rest _; simp [encEntries, readEntries]
  | cons e E ih =>
    intro k m rest hb
    have he := hb e (by simp)
    rw [encEntries, List.length_cons, readEntries]
    simp only [List.append_assoc]
    rw [decIntLoop_enc]
    simp only []
    rw [decIntLoop_enc]
    simp only [Nat.zero_mul, Nat.zero_add]
    rw [Nat.mod_eq_of_lt he.1, Nat.mod_eq_of_lt he.2]
    rw [ih (k + 40) _ rest fun x hx => hb x (List.mem_cons_of_mem _ hx)]
    simp

/-- The sentinel, having the largest key, is the last entry of a
well-formed frequency table whose other keys are byte values. -/
theorem sorted_split_sentinel {T : List (Nat × Nat)} (hwf : mapWF T)
    (hs : mapContainsKey T PSEUDO_EOF = true)
    (hk : ∀ e ∈ T, e.1 ≠ PSEUDO_EOF → e.1 < 256) :
    ∃ v₀, T = T.filter (fun e => e.1 ≠ PSEUDO_EOF) ++ [(PSEUDO_EOF, v₀)] := by
  induction T with
  | nil => simp [mapContainsKey, mapLookup] at hs
  | cons a rest ih =>
    rw [mapWF, List.pairwise_cons] at hwf
    by_cases ha : a.1 = PSEUDO_EOF
    · have hrest : rest = [] := by
        cases rest with
        | nil => rfl
        | cons b rest2 =>
          have hab : a.1 < b.1 := hwf.1 b (by simp)
          have hb1 : b.1 ≠ PSEUDO_EOF := by simp only [PSEUDO_EOF] at ha ⊢; omega
          have := hk b (by simp) hb1
          simp only [PSEUDO_EOF] at ha this
          omega
      subst hrest
      refine ⟨a.2, ?_⟩
      have : (List.filter (fun e => decide (e.1 ≠ PSEUDO_EOF)) [a]) = [] := by
        simp [List.filter, ha]
      rw [this]
      simp [← ha]
    · have hs2 : mapContainsKey rest PSEUDO_EOF = true := by
        rw [mapContainsKey, mapLookup, if_neg (fun hh => ha hh.symm)] at hs
        exact hs
      obtain ⟨v₀, hv₀⟩ := ih hwf.2 hs2 (fun e he h => hk e (List.mem_cons_of_mem _ he) h)
      refine ⟨v₀, ?_⟩
      rw [List.filter_cons_of_pos (by simpa using ha)]
      rw [List.cons_append, ← hv₀]

/-- Core header round trip: reading back the written header with the
same password recovers the table (sentinel count re-set to 1) and
leaves exactly the trailing bits on the channel. -/
theorem readHeader_writeHeader (T : List (Nat × Nat)) (pw : String)
    (hwf : mapWF T) (hs : mapContainsKey T PSEUDO_EOF = true)
    (hk : ∀ e ∈ T, e.1 ≠ PSEUDO_EOF → e.1 < 256)
    (hv : ∀ e ∈ T, e.2 < 2 ^ 31) :
    ∃ w, writeEncryptedFileHeader T pw = some w ∧
      ∀ rest, readEncryptedFileHeader (w ++ rest) pw = (mapPut T PSEUDO_EOF 1, rest) := by
  obtain ⟨v₀, hsplit⟩ := sorted_split_sentinel hwf hs hk
  refine ⟨_, by rw [writeEncryptedFileHeader, if_pos hs], ?_⟩
  intro rest
  set F := T.filter (fun e => e.1 ≠ PSEUDO_EOF) with hF
  have hFsub : ∀ e ∈ F, e ∈ T := fun e he => (List.mem_filter.mp he).1
  have hFne : ∀ e ∈ F, e.1 ≠ PSEUDO_EOF := by
    intro e he
    have := (List.mem_filter.mp he).2
    simpa using this
  have hFlt : ∀ e ∈ F, e.1 < 256 := fun e he => hk e (hFsub e he) (hFne e he)
  have hFwf : mapWF F := List.Pairwise.sublist (List.filter_sublist T) hwf
  have hlen : T.length = F.length + 1 := by
    rw [hsplit]
    simp [hF]
  have hFlen : F.length ≤ 256 := by
    have hp : (F.map Prod.fst).Pairwise (· < ·) := by
      rw [List.pairwise_map]
      exact hFwf
    have := sorted_length_le (F.map Prod.fst) 0 256 hp
      (by
        intro x hx
        obtain ⟨e, he, hex⟩ := List.mem_map.mp hx
        exact ⟨Nat.zero_le x, hex ▸ hFlt e he⟩)
    simpa using this
  rw [readEncryptedFileHeader]
  simp only [List.append_assoc]
  rw [decIntLoop_enc]
  simp only [Nat.zero_mul, Nat.zero_add]
  have hsz : (T.length - 1) % 2 ^ 32 = F.length := by
    rw [hlen]
    simp only [Nat.add_sub_cancel]
    exact Nat.mod_eq_of_lt (by omega)
  rw [hsz]
  rw [readEntries_enc pw F 32 [] rest
    (fun e he => ⟨by have := hFlt e he; norm_num; omega,
      by have := hv e (hFsub e he); omega⟩)]
  have hfold : F.foldl (fun acc e => mapPut acc e.1 e.2) [] = F := by
    have := foldl_mapPut_sorted F [] (by simpa using hFwf)
    simpa using this
  have hput : mapPut F PSEUDO_EOF 1 = F ++ [(PSEUDO_EOF, 1)] :=
    mapPut_append (fun e he => by have := hFlt e he; rw [PSEUDO_EOF]; omega)
  have hputT : mapPut T PSEUDO_EOF 1 = F ++ [(PSEUDO_EOF, 1)] := by
    rw [hsplit]
    exact mapPut_append_replace (fun e he => by have := hFlt e he; rw [PSEUDO_EOF]; omega)
  simp only []
  rw [hfold, hput, hputT]

/-! ### Tree-construction invariants -/

theorem pqEnqueue_length (q : List (Nat × Node)) (p : Nat) (v : Node) :
    (pqEnqueue q p v).length = q.length + 1 := by
  induction q with
  | nil => rfl
  | cons e rest ih =>
    rw [pqEnqueue]
    by_cases h : e.1 ≤ p
    · simp [h, ih]
    · simp [h]

theorem mem_pqEnqueue {q : List (Nat × Node)} {p : Nat} {v : Node} {e : Nat × Node} :
    e ∈ pqEnqueue q p v ↔ e ∈ q ∨ e = (p, v) := by
  induction q with
  | nil => simp [pqEnqueue]
  | cons a rest ih =>
    rw [pqEnqueue]
    by_cases h : a.1 ≤ p
    · simp only [if_pos h, List.mem_cons, ih]
      tauto
    · simp only [if_neg h, List.mem_cons]
      tauto

/-- Every character in some queued node's leaves survives the merge
loop into the final tree, as long as queued nodes are non-null. -/
theorem buildLoop_leafChars :
    ∀ (gas : Nat) (q : List (Nat × Node)), gas = q.length →
      (∀ e ∈ q, e.2 ≠ Node.nil) →
      ∀ c, (∃ e ∈ q, c ∈ leafChars e.2) → c ∈ leafChars (buildLoop gas q) := by
  intro gas
  induction gas with
  | zero =>
    intro q hg _ c hc
    obtain ⟨e, he, _⟩ := hc
    rw [List.eq_nil_of_length_eq_zero hg.symm] at he
    simp at he
  | succ gas ih =>
    intro q hg hnil c hc
    match q with
    | [] => obtain ⟨e, he, _⟩ := hc; simp at he
    | [e] =>
      obtain ⟨e', he', hce⟩ := hc
      rw [List.mem_singleton] at he'
      subst he'
      exact hce
    | e1 :: e2 :: rest =>
      rw [buildLoop]
      have h1 : e1.2 ≠ Node.nil := hnil e1 (by simp)
      have hpar : leafChars (Node.node NOT_A_CHAR (e1.2.weight + e2.2.weight) e1.2 e2.2)
          = leafChars e1.2 ++ leafChars e2.2 := by
        rw [leafChars, if_neg (by tauto)]
      apply ih
      · rw [pqEnqueue_length]
        simp at hg
        omega
      · intro e he
        rcases mem_pqEnqueue.mp he with he | he
        · exact hnil e (by simp [he])
        · simp [he]
      · obtain ⟨e, he, hce⟩ := hc
        rcases List.mem_cons.mp he with he | he
        · exact ⟨_, mem_pqEnqueue.mpr (Or.inr rfl), by
            rw [hpar, List.mem_append]; exact Or.inl (he ▸ hce)⟩
        · rcases List.mem_cons.mp he with he2 | he2
          · exact ⟨_, mem_pqEnqueue.mpr (Or.inr rfl), by
              rw [hpar, List.mem_append]; exact Or.inr (he2 ▸ hce)⟩
          · exact ⟨e, mem_pqEnqueue.mpr (Or.inl he2), hce⟩

/-- With at least two queued non-null nodes the loop's result is an
internal node (a merge parent with two non-null children). -/
theorem buildLoop_internal :
    ∀ (gas : Nat) (q : List (Nat × Node)), gas = q.length → 2 ≤ q.length →
      (∀ e ∈ q, e.2 ≠ Node.nil) →
      ∃ w z o, buildLoop gas q = Node.node NOT_A_CHAR w z o ∧
        z ≠ Node.nil ∧ o ≠ Node.nil := by
  intro gas
  induction gas with
  | zero =>
    intro q hg h2 _
    omega
  | succ gas ih =>
    intro q hg h2 hnil
    match q with
    | [] => simp at h2
    | [e] => simp at h2
    | e1 :: e2 :: rest =>
      rw [buildLoop]
      have h1 : e1.2 ≠ Node.nil := hnil e1 (by simp)
      have h2' : e2.2 ≠ Node.nil := hnil e2 (by simp)
      have hnil' : ∀ e ∈ pqEnqueue rest (e1.2.weight + e2.2.weight)
          (Node.node NOT_A_CHAR (e1.2.weight + e2.2.weight) e1.2 e2.2), e.2 ≠ Node.nil := by
        intro e he
        rcases mem_pqEnqueue.mp he with he | he
        · exact hnil e (by simp [he])
        · simp [he]
      match rest with
      | [] =>
        refine ⟨e1.2.weight + e2.2.weight, e1.2, e2.2, ?_, h1, h2'⟩
        rw [pqEnqueue, buildLoop]
      | r :: rest2 =>
        apply ih
        · rw [pqEnqueue_length]
          simp at hg ⊢
          omega
        · rw [pqEnqueue_length]
          simp
        · exact hnil'

theorem fillQueue_length (T : List (Nat × Nat)) : (fillQueue T).length = T.length := by
  rw [fillQueue]
  suffices h : ∀ (l : List (Nat × Nat)) (q : List (Nat × Node)),
      (l.foldl (fun q e => pqEnqueue q e.2 (Node.node e.1 e.2 .nil .nil)) q).length
        = q.length + l.length by
    simpa using h T []
  intro l
  induction l with
  | nil => intro q; simp
  | cons e l ih =>
    intro q
    rw [List.foldl_cons, ih, pqEnqueue_length]
    simp
    omega

theorem fillQueue_mem {T : List (Nat × Nat)} {e : Nat × Node}
    (h : e ∈ fillQueue T) : ∃ a ∈ T, e = (a.2, Node.node a.1 a.2 .nil .nil) := by
  rw [fillQueue] at h
  suffices hgen : ∀ (l : List (Nat × Nat)) (q : List (Nat × Node)),
      e ∈ l.foldl (fun q a => pqEnqueue q a.2 (Node.node a.1 a.2 .nil .nil)) q →
      e ∈ q ∨ ∃ a ∈ l, e = (a.2, Node.node a.1 a.2 .nil .nil) by
    rcases hgen T [] h with h2 | h2
    · simp at h2
    · exact h2
  intro l
  induction l with
  | nil => intro q hq; exact Or.inl (by simpa using hq)
  | cons a l ih =>
    intro q hq
    rw [List.foldl_cons] at hq
    rcases ih _ hq with h2 | h2
    · rcases mem_pqEnqueue.mp h2 with h3 | h3
      · exact Or.inl h3
      · exact Or.inr ⟨a, by simp, h3⟩
    · obtain ⟨b, hb, hbe⟩ := h2
      exact Or.inr ⟨b, List.mem_cons_of_mem _ hb, hbe⟩

theorem fillQueue_mem_of_mem {T : List (Nat × Nat)} {a : Nat × Nat} (h : a ∈ T) :
    (a.2, Node.node a.1 a.2 .nil .nil) ∈ fillQueue T := by
  rw [fillQueue]
  suffices hgen : ∀ (l : List (Nat × Nat)) (q : List (Nat × Node)),
      (a ∈ l ∨ (a.2, Node.node a.1 a.2 .nil .nil) ∈ q) →
      (a.2, Node.node a.1 a.2 .nil .nil) ∈
        l.foldl (fun q e => pqEnqueue q e.2 (Node.node e.1 e.2 .nil .nil)) q from
    hgen T [] (Or.inl h)
  intro l
  induction l with
  | nil => intro q hq; simpa using hq.resolve_left (by simp)
  | cons b l ih =>
    intro q hq
    rw [List.foldl_cons]
    apply ih
    rcases hq with hq | hq
    · rcases List.mem_cons.mp hq with hq | hq
      · exact Or.inr (mem_pqEnqueue.mpr (Or.inr (by rw [hq])))
      · exact Or.inl hq
    · exact Or.inr (mem_pqEnqueue.mpr (Or.inl hq))

/-- Every key of the table reaches a leaf of the built tree. -/
theorem mem_leafChars_buildEncodingTree {T : List (Nat × Nat)} {c : Nat}
    (h : mapContainsKey T c = true) : c ∈ leafChars (buildEncodingTree T) := by
  rw [mapContainsKey, Option.isSome_iff_exists] at h
  obtain ⟨v, hv⟩ := h
  have hmem : (c, v) ∈ T := mapLookup_mem hv
  apply buildLoop_leafChars (fillQueue T).length (fillQueue T) rfl
  · intro e he
    obtain ⟨a, _, hae⟩ := fillQueue_mem he
    simp [hae]
  · refine ⟨(v, Node.node c v .nil .nil), fillQueue_mem_of_mem (a := (c, v)) hmem, ?_⟩
    simp [leafChars]

/-! ### Code-table correctness -/

theorem leadsTo_ne_nil {t : Node} {p : List Bool} {c : Nat} (h : leadsTo t p c) :
    t ≠ Node.nil := by
  cases h <;> simp

theorem fillMap_lookup :
    ∀ (t : Node) (m : List (Nat × List Bool)) (base : List Bool) (c : Nat) (q : List Bool),
      mapLookup (fillMap m t base) c = some q →
      mapLookup m c = some q ∨ ∃ p, q = base ++ p ∧ leadsTo t p c := by
  intro t
  induction t with
  | nil =>
    intro m base c q h
    exact Or.inl (by simpa [fillMap] using h)
  | node ch w z o ihz iho =>
    intro m base c q h
    rw [fillMap] at h
    by_cases hl : z = Node.nil ∧ o = Node.nil
    · rw [if_pos hl] at h
      by_cases hc : c = ch
      · right
        subst hc
        rw [mapLookup_put_self] at h
        refine ⟨[], by simpa using (Option.some.inj h).symm, ?_⟩
        obtain ⟨h1, h2⟩ := hl
        subst h1
        subst h2
        exact leadsTo.leaf c w
      · left
        rwa [mapLookup_put_ne _ _ hc] at h
    · rw [if_neg hl] at h
      rcases iho _ _ _ _ h with h2 | h2
      · rcases ihz _ _ _ _ h2 with h3 | h3
        · exact Or.inl h3
        · obtain ⟨p, hp, hlt⟩ := h3
          exact Or.inr ⟨false :: p, by simpa using hp, leadsTo.zero ch w o hlt⟩
      · obtain ⟨p, hp, hlt⟩ := h2
        exact Or.inr ⟨true :: p, by simpa using hp, leadsTo.one ch w z hlt⟩

theorem fillMap_preserve :
    ∀ (t : Node) (m : List (Nat × List Bool)) (base : List Bool) (c : Nat),
      (mapLookup m c).isSome → (mapLookup (fillMap m t base) c).isSome := by
  intro t
  induction t with
  | nil => intro m base c h; simpa [fillMap] using h
  | node ch w z o ihz iho =>
    intro m base c h
    rw [fillMap]
    by_cases hl : z = Node.nil ∧ o = Node.nil
    · rw [if_pos hl]
      by_cases hc : c = ch
      · subst hc
        rw [mapLookup_put_self]
        rfl
      · rw [mapLookup_put_ne _ _ hc]
        exact h
    · rw [if_neg hl]
      exact iho _ _ _ (ihz _ _ _ h)

theorem fillMap_domain :
    ∀ (t : Node) (m : List (Nat × List Bool)) (base : List Bool) (c : Nat),
      c ∈ leafChars t → (mapLookup (fillMap m t base) c).isSome := by
  intro t
  induction t with
  | nil => intro m base c h; simp [leafChars] at h
  | node ch w z o ihz iho =>
    intro m base c h
    rw [leafChars] at h
    rw [fillMap]
    by_cases hl : z = Node.nil ∧ o = Node.nil
    · rw [if_pos hl] at h
      rw [if_pos hl]
      rw [List.mem_singleton] at h
      subst h
      rw [mapLookup_put_self]
      rfl
    · rw [if_neg hl] at h
      rw [if_neg hl]
      rcases List.mem_append.mp h with h2 | h2
      · exact fillMap_preserve o _ _ _ (ihz _ _ _ h2)
      · exact iho _ _ _ h2

/-- A recorded root-to-leaf path cannot be extended into another one:
paths stop at leaves. -/
theorem leadsTo_no_extension :
    ∀ {t : Node} {p : List Bool} {c₁ : Nat}, leadsTo t p c₁ →
      ∀ {b : Bool} {tl : List Bool} {c₂ : Nat}, ¬ leadsTo t (p ++ b :: tl) c₂ := by
  intro t p c₁ h
  induction h with
  | leaf c w =>
    intro b tl c₂ h2
    rw [List.nil_append] at h2
    cases h2 with
    | zero _ _ _ h3 => exact leadsTo_ne_nil h3 rfl
    | one _ _ _ h3 => exact leadsTo_ne_nil h3 rfl
  | zero ch w o h ih =>
    intro b tl c₂ h2
    rw [List.cons_append] at h2
    cases h2 with
    | zero _ _ _ h3 => exact ih h3
  | one ch w z h ih =>
    intro b tl c₂ h2
    rw [List.cons_append] at h2
    cases h2 with
    | one _ _ _ h3 => exact ih h3

/-! ### Decoder follows paths -/

theorem decode_follow_emit :
    ∀ {t : Node} {p : List Bool} {c : Nat}, leadsTo t p c → c ≠ PSEUDO_EOF →
      ∀ (root : Node) (fuel : Nat) (rest : List Bool),
        decodeLoop (p.length + fuel + 1) root t (p ++ rest) =
          (decodeLoop fuel root root rest).map (fun out => c :: out) := by
  intro t p c h
  induction h with
  | leaf c w =>
    intro hc root fuel rest
    simp only [List.nil_append, List.length_nil, Nat.zero_add]
    rw [decodeLoop]
    rw [if_pos ⟨rfl, rfl⟩, if_neg hc]
  | @zero z p₁ c ch w o h ih =>
    intro hc root fuel rest
    have harith : (false :: p₁).length + fuel + 1 = (p₁.length + fuel + 1) + 1 := by
      simp
      omega
    rw [harith, List.cons_append, decodeLoop]
    rw [if_neg (fun hcontra => leadsTo_ne_nil h hcontra.1)]
    simp only [readBitE, Bool.false_eq_true, if_false]
    exact ih hc root fuel rest
  | @one o p₁ c ch w z h ih =>
    intro hc root fuel rest
    have harith : (true :: p₁).length + fuel + 1 = (p₁.length + fuel + 1) + 1 := by
      simp
      omega
    rw [harith, List.cons_append, decodeLoop]
    rw [if_neg (fun hcontra => leadsTo_ne_nil h hcontra.2)]
    simp only [readBitE, if_true]
    exact ih hc root fuel rest

theorem decode_follow_sentinel :
    ∀ {t : Node} {p : List Bool}, leadsTo t p PSEUDO_EOF →
      ∀ (root : Node) (fuel : Nat) (rest : List Bool),
        decodeLoop (p.length + fuel + 1) root t (p ++ rest) = some [] := by
  intro t p h
  generalize hc : PSEUDO_EOF = c at h
  induction h with
  | leaf c w =>
    intro root fuel rest
    simp only [List.nil_append, List.length_nil, Nat.zero_add]
    rw [decodeLoop]
    rw [if_pos ⟨rfl, rfl⟩, if_pos hc.symm]
  | @zero z p₁ c ch w o h ih =>
    intro root fuel rest
    have harith : (false :: p₁).length + fuel + 1 = (p₁.length + fuel + 1) + 1 := by
      simp
      omega
    rw [harith, List.cons_append, decodeLoop]
    rw [if_neg (fun hcontra => leadsTo_ne_nil h hcontra.1)]
    simp only [readBitE, Bool.false_eq_true, if_false]
    exact ih hc root fuel rest
  | @one o p₁ c ch w z h ih =>
    intro root fuel rest
    have harith : (true :: p₁).length + fuel + 1 = (p₁.length + fuel + 1) + 1 := by
      simp
      omega
    rw [harith, List.cons_append, decodeLoop]
    rw [if_neg (fun hcontra => leadsTo_ne_nil h hcontra.2)]
    simp only [readBitE, if_true]
    exact ih hc root fuel rest

/-! ### Frequency-table facts -/

theorem counts_mem :
    ∀ (S : List Nat) (m : List (Nat × Nat)) (e : Nat × Nat),
      e ∈ S.foldl (fun m ch => mapPut m ch (mapGetD m ch 0 + 1)) m → e ∈ m ∨ e.1 ∈ S := by
  intro S
  induction S with
  | nil => intro m e h; exact Or.inl (by simpa using h)
  | cons ch S ih =>
    intro m e h
    rw [List.foldl_cons] at h
    rcases ih _ _ h with h2 | h2
    · rcases mem_mapPut h2 with h3 | h3
      · exact Or.inr (by simp [h3])
      · exact Or.inl h3
    · exact Or.inr (List.mem_cons_of_mem _ h2)

theorem counts_wf :
    ∀ (S : List Nat) (m : List (Nat × Nat)), mapWF m →
      mapWF (S.foldl (fun m ch => mapPut m ch (mapGetD m ch 0 + 1)) m) := by
  intro S
  induction S with
  | nil => intro m h; simpa using h
  | cons ch S ih =>
    intro m h
    rw [List.foldl_cons]
    exact ih _ (mapWF_put h _ _)

theorem counts_le :
    ∀ (S : List Nat) (m : List (Nat × Nat)) (n : Nat),
      (∀ e ∈ m, e.2 ≤ n) →
      ∀ e ∈ S.foldl (fun m ch => mapPut m ch (mapGetD m ch 0 + 1)) m,
        e.2 ≤ n + S.length := by
  intro S
  induction S with
  | nil => intro m n hm e he; simpa using hm e he
  | cons ch S ih =>
    intro m n hm e he
    rw [List.foldl_cons] at he
    have hstep : ∀ e' ∈ mapPut m ch (mapGetD m ch 0 + 1), e'.2 ≤ n + 1 := by
      intro e' he'
      rcases mem_mapPut he' with h3 | h3
      · have hd : mapGetD m ch 0 ≤ n := by
          rw [mapGetD]
          cases hl : mapLookup m ch with
          | none => simp
          | some v => simpa using hm _ (mapLookup_mem hl)
        rw [h3]
        simpa using hd
      · have := hm e' h3
        omega
    have := ih _ (n + 1) hstep e he
    simp only [List.length_cons]
    omega

theorem counts_containsKey :
    ∀ (S : List Nat) (m : List (Nat × Nat)) (ch : Nat),
      (ch ∈ S ∨ (mapLookup m ch).isSome) →
      (mapLookup (S.foldl (fun m c => mapPut m c (mapGetD m c 0 + 1)) m) ch).isSome := by
  intro S
  induction S with
  | nil => intro m ch h; simpa using h.resolve_left (by simp)
  | cons c S ih =>
    intro m ch h
    rw [List.foldl_cons]
    apply ih
    rcases h with h | h
    · rcases List.mem_cons.mp h with h | h
      · right
        subst h
        rw [mapLookup_put_self]
        rfl
      · exact Or.inl h
    · right
      by_cases hc : ch = c
      · subst hc
        rw [mapLookup_put_self]
        rfl
      · rw [mapLookup_put_ne _ _ hc]
        exact h

/-! ### Decode of encode -/

theorem decode_encodeBody :
    ∀ (S : List Nat) (tree : Node) (m : List (Nat × List Bool)),
      (∀ ch ∈ S, ch ≠ PSEUDO_EOF ∧ ∃ p, mapLookup m ch = some p ∧ leadsTo tree p ch) →
      (∃ p, mapLookup m PSEUDO_EOF = some p ∧ leadsTo tree p PSEUDO_EOF) →
      ∃ fuel, decodeLoop fuel tree tree (encodeBody m S ++ mapGetD m PSEUDO_EOF []) = some S := by
  intro S
  induction S with
  | nil =>
    intro tree m _ hsent
    obtain ⟨p, hp, hlt⟩ := hsent
    refine ⟨p.length + 0 + 1, ?_⟩
    rw [encodeBody, List.nil_append]
    have hg : mapGetD m PSEUDO_EOF [] = p := by
      rw [mapGetD, hp]
      rfl
    rw [hg]
    have := decode_follow_sentinel hlt tree 0 []
    simpa using this
  | cons ch S ih =>
    intro tree m hS hsent
    obtain ⟨hch, p, hp, hlt⟩ := hS ch (by simp)
    obtain ⟨fuel, hfuel⟩ := ih tree m (fun x hx => hS x (List.mem_cons_of_mem _ hx)) hsent
    refine ⟨p.length + fuel + 1, ?_⟩
    rw [encodeBody]
    have hg : mapGetD m ch [] = p := by
      rw [mapGetD, hp]
      rfl
    rw [hg, List.append_assoc]
    rw [decode_follow_emit hlt hch tree fuel _]
    rw [hfuel]
    rfl

/-- Claim C1: for every byte sequence S (each element a byte value,
with the total length within the 32-bit `int` range the C++ counters
impose) and every password P, decompressing the output of `compress`
with the same password reproduces S exactly (the fuel witnesses
termination of the C++ `while` loop). -/
theorem compress_decompress_roundtrip (S : List Nat) (pw : String)
    (hb : ∀ b ∈ S, b < 256) (hl : S.length < 2 ^ 31) :
    ∃ fuel out, compress S pw = some out ∧ decompress out pw fuel = some S := by
  have hwf : mapWF (getFrequencyTable S) :=
    mapWF_put (counts_wf S [] (by simp [mapWF])) _ _
  have hsent : mapLookup (getFrequencyTable S) PSEUDO_EOF = some 1 :=
    mapLookup_put_self _ _ _
  have hcont : mapContainsKey (getFrequencyTable S) PSEUDO_EOF = true := by
    rw [mapContainsKey, hsent]
    rfl
  have hkeys : ∀ e ∈ getFrequencyTable S, e.1 ≠ PSEUDO_EOF → e.1 < 256 := by
    intro e he hne
    rcases mem_mapPut he with h | h
    · exact absurd (by simp [h]) hne
    · rcases counts_mem S [] e h with h2 | h2
      · simp at h2
      · exact hb _ h2
  have hvals : ∀ e ∈ getFrequencyTable S, e.2 < 2 ^ 31 := by
    intro e he
    rcases mem_mapPut he with h | h
    · rw [h]
      norm_num
    · have := counts_le S [] 0 (by simp) e h
      simp only [Nat.zero_add] at this
      omega
  obtain ⟨w, hw, hread⟩ :=
    readHeader_writeHeader (getFrequencyTable S) pw hwf hcont hkeys hvals
  have hTput : mapPut (getFrequencyTable S) PSEUDO_EOF 1 = getFrequencyTable S :=
    mapPut_eq_self hwf hsent
  have hobl : ∀ ch ∈ S, ch ≠ PSEUDO_EOF ∧
      ∃ p, mapLookup (fillMap [] (buildEncodingTree (getFrequencyTable S)) []) ch = some p ∧
        leadsTo (buildEncodingTree (getFrequencyTable S)) p ch := by
    intro ch hch
    have hlt256 := hb ch hch
    constructor
    · simp only [PSEUDO_EOF]
      omega
    · have hck : mapContainsKey (getFrequencyTable S) ch = true := by
        rw [mapContainsKey, getFrequencyTable]
        rw [mapLookup_put_ne _ _ (by simp only [PSEUDO_EOF]; omega)]
        exact counts_containsKey S [] ch (Or.inl hch)
      have hleaf := mem_leafChars_buildEncodingTree hck
      obtain ⟨p, hp⟩ := Option.isSome_iff_exists.mp
        (fillMap_domain (buildEncodingTree (getFrequencyTable S)) [] [] ch hleaf)
      rcases fillMap_lookup _ _ _ _ _ hp with h | h
      · simp [mapLookup] at h
      · obtain ⟨p', hp', hlt⟩ := h
        exact ⟨p, hp, by rw [hp']; simpa using hlt⟩
  have hsentobl : ∃ p,
      mapLookup (fillMap [] (buildEncodingTree (getFrequencyTable S)) []) PSEUDO_EOF = some p ∧
        leadsTo (buildEncodingTree (getFrequencyTable S)) p PSEUDO_EOF := by
    have hleaf := mem_leafChars_buildEncodingTree hcont
    obtain ⟨p, hp⟩ := Option.isSome_iff_exists.mp
      (fillMap_domain (buildEncodingTree (getFrequencyTable S)) [] [] PSEUDO_EOF hleaf)
    rcases fillMap_lookup _ _ _ _ _ hp with h | h
    · simp [mapLookup] at h
    · obtain ⟨p', hp', hlt⟩ := h
      exact ⟨p, hp, by rw [hp']; simpa using hlt⟩
  obtain ⟨fuel, hdec⟩ :=
    decode_encodeBody S (buildEncodingTree (getFrequencyTable S))
      (fillMap [] (buildEncodingTree (getFrequencyTable S)) []) hobl hsentobl
  refine ⟨fuel, w ++ encodeFile S (buildEncodingTree (getFrequencyTable S)), ?_, ?_⟩
  · rw [compress, hw]
    rfl
  · rw [decompress, hread, hTput, decodeFile]
    simp only [encodeFile]
    exact hdec

/-- Claim C2: reading the header written for table T with the same
password recovers T with the sentinel re-inserted at count 1 and
consumes exactly the written bits.  The key-range and count-range
hypotheses are what the spec's data model fixes for a frequency table
(symbols are bytes plus the sentinel, counts are 32-bit `int`s). -/
theorem header_roundtrip (T : List (Nat × Nat)) (pw : String)
    (hwf : mapWF T) (hs : mapContainsKey T PSEUDO_EOF = true)
    (hk : ∀ e ∈ T, e.1 ≠ PSEUDO_EOF → e.1 < 256)
    (hv : ∀ e ∈ T, e.2 < 2 ^ 31) :
    ∃ w, writeEncryptedFileHeader T pw = some w ∧
      readEncryptedFileHeader w pw = (mapPut T PSEUDO_EOF 1, []) := by
  obtain ⟨w, hw, hread⟩ := readHeader_writeHeader T pw hwf hs hk hv
  exact ⟨w, hw, by simpa using hread []⟩

/-- Witness for C2 at a concrete table and password. -/
theorem header_roundtrip_witness :
    mapWF [(97, 2), (256, 1)] ∧
    ∃ w, writeEncryptedFileHeader [(97, 2), (256, 1)] "k" = some w ∧
      readEncryptedFileHeader w "k" = (mapPut [(97, 2), (256, 1)] PSEUDO_EOF 1, []) :=
  ⟨by decide, header_roundtrip [(97, 2), (256, 1)] "k" (by decide) (by decide)
    (by decide) (by decide)⟩

/-- Claim C3: the frequency table built from any input stream holds the
sentinel with count exactly 1, and so does every table returned by the
header reader, whatever the bits and the password. -/
theorem sentinel_count_always_one (S : List Nat) (bits : List Bool) (pw : String) :
    mapLookup (getFrequencyTable S) PSEUDO_EOF = some 1 ∧
    mapLookup (readEncryptedFileHeader bits pw).1 PSEUDO_EOF = some 1 := by
  constructor
  · exact mapLookup_put_self _ _ _
  · simp only [readEncryptedFileHeader]
    exact mapLookup_put_self _ _ _

/-- Claim C10: a table without the sentinel makes the header writer
raise `error("No PSEUDO_EOF defined.")` before any bit is written
(`none`: no output bits were produced). -/
theorem writeHeader_missing_sentinel_errors (T : List (Nat × Nat)) (pw : String)
    (h : mapContainsKey T PSEUDO_EOF = false) :
    writeEncryptedFileHeader T pw = none := by
  rw [writeEncryptedFileHeader, if_neg (by simp [h])]

/-- Witness for C10 at a concrete sentinel-free table. -/
theorem writeHeader_missing_sentinel_errors_witness :
    mapContainsKey [(97, 5)] PSEUDO_EOF = false ∧
    writeEncryptedFileHeader [(97, 5)] "x" = none :=
  ⟨by decide, writeHeader_missing_sentinel_errors [(97, 5)] "x" (by decide)⟩

/-! ### The header layout exactly as the spec words it (claim C4) -/

/-- Spec-described plain bits of one header entry list: per entry an
8-bit symbol then a 32-bit big-endian count. -/
def entriesPlainBits : List (Nat × Nat) → List Bool
  | [] => []
  | e :: rest => natBits e.1 8 ++ natBits e.2 32 ++ entriesPlainBits rest

/-- Spec-described plain header: a 32-bit big-endian count of
non-sentinel entries, then the entries. -/
def headerPlainBits (T : List (Nat × Nat)) : List Bool :=
  natBits (T.filter (fun e => e.1 ≠ PSEUDO_EOF)).length 32 ++
    entriesPlainBits (T.filter (fun e => e.1 ≠ PSEUDO_EOF))

theorem filter_length_sentinel {T : List (Nat × Nat)} (hwf : mapWF T)
    (hs : mapContainsKey T PSEUDO_EOF = true) :
    (T.filter (fun e => e.1 ≠ PSEUDO_EOF)).length = T.length - 1 := by
  induction T with
  | nil => simp [mapContainsKey, mapLookup] at hs
  | cons a rest ih =>
    rw [mapWF, List.pairwise_cons] at hwf
    by_cases ha : a.1 = PSEUDO_EOF
    · have hrest : ∀ e ∈ rest, e.1 ≠ PSEUDO_EOF := by
        intro e he
        have h2 := hwf.1 e he
        simp only [PSEUDO_EOF] at ha ⊢
        omega
      rw [List.filter_cons_of_neg (by simp [ha])]
      rw [List.filter_eq_self.mpr (fun e he => by simpa using hrest e he)]
      simp
    · rw [List.filter_cons_of_pos (by simpa using ha)]
      have hs2 : mapContainsKey rest PSEUDO_EOF = true := by
        rw [mapContainsKey, mapLookup, if_neg (fun hh => ha hh.symm)] at hs
        exact hs
      have hlen : 1 ≤ rest.length := by
        cases rest with
        | nil => simp [mapContainsKey, mapLookup] at hs2
        | cons b r => simp
      rw [List.length_cons, ih hwf.2 hs2]
      simp only [List.length_cons]
      omega

theorem xorEncrypt_append_fields (pw : String) (k : Nat) (A B C : List Bool)
    (hA : A.length = 8) (hB : B.length = 32) :
    xorEncrypt pw k (A ++ B ++ C) =
      xorEncrypt pw k A ++ xorEncrypt pw (k + 8) B ++ xorEncrypt pw (k + 40) C := by
  rw [xorEncrypt_append, xorEncrypt_append, hA, List.length_append, hA, hB]

theorem encEntries_eq_xorEncrypt (pw : String) :
    ∀ (E : List (Nat × Nat)) (k : Nat),
      encEntries pw k E = xorEncrypt pw k (entriesPlainBits E) := by
  intro E
  induction E with
  | nil => intro k; rfl
  | cons e E ih =>
    intro k
    rw [encEntries, entriesPlainBits, ih]
    rw [encIntBits_eq_xorEncrypt, encIntBits_eq_xorEncrypt]
    rw [xorEncrypt_append_fields pw k _ _ _ (natBits_length _ _) (natBits_length _ _)]

/-- Claim C4: for any frequency table holding the sentinel, the header
writer emits exactly the spec's layout, each bit XORed with the next
password-stream bit. -/
theorem writeHeader_matches_layout (T : List (Nat × Nat)) (pw : String)
    (hwf : mapWF T) (hs : mapContainsKey T PSEUDO_EOF = true) :
    writeEncryptedFileHeader T pw = some (xorEncrypt pw 0 (headerPlainBits T)) := by
  rw [writeEncryptedFileHeader, if_pos hs]
  congr 1
  rw [headerPlainBits, xorEncrypt_append, natBits_length]
  rw [← encIntBits_eq_xorEncrypt, ← encEntries_eq_xorEncrypt]
  rw [filter_length_sentinel hwf hs]

/-- Witness for C4 at a concrete table and password. -/
theorem writeHeader_matches_layout_witness :
    mapContainsKey [(97, 2), (256, 1)] PSEUDO_EOF = true ∧
    writeEncryptedFileHeader [(97, 2), (256, 1)] "k" =
      some (xorEncrypt "k" 0 (headerPlainBits [(97, 2), (256, 1)])) :=
  ⟨by decide, writeHeader_matches_layout [(97, 2), (256, 1)] "k" (by decide) (by decide)⟩

/-- Witness for C1 at a concrete input and password. -/
theorem compress_decompress_roundtrip_witness :
    (∀ b ∈ [104, 105], b < 256) ∧
    ∃ fuel out, compress [104, 105] "pw" = some out ∧
      decompress out "pw" fuel = some [104, 105] :=
  ⟨by decide, compress_decompress_roundtrip [104, 105] "pw" (by decide) (by decide)⟩

/-- Claim C5: in the code table derived from a tree built from a
frequency table with at least two entries, no symbol's bit sequence is
a proper prefix of another symbol's bit sequence. -/
theorem codes_prefix_free (T : List (Nat × Nat)) (hwf : mapWF T) (h2 : 2 ≤ T.length)
    (c₁ c₂ : Nat) (p₁ p₂ : List Bool) (hne : c₁ ≠ c₂)
    (h₁ : mapLookup (fillMap [] (buildEncodingTree T) []) c₁ = some p₁)
    (h₂ : mapLookup (fillMap [] (buildEncodingTree T) []) c₂ = some p₂) :
    ¬ properPrefixOf p₁ p₂ := by
  rintro ⟨tl, htl, hq⟩
  obtain h | ⟨q₁, hq₁, hl₁⟩ := fillMap_lookup _ _ _ _ _ h₁
  · simp [mapLookup] at h
  obtain h | ⟨q₂, hq₂, hl₂⟩ := fillMap_lookup _ _ _ _ _ h₂
  · simp [mapLookup] at h
  rw [List.nil_append] at hq₁ hq₂
  subst hq₁
  subst hq₂
  cases tl with
  | nil => exact htl rfl
  | cons b tl2 =>
    subst hq
    exact leadsTo_no_extension hl₁ hl₂

/-- Witness for C5 at a concrete two-entry table. -/
theorem codes_prefix_free_witness :
    mapLookup (fillMap [] (buildEncodingTree [(97, 1), (256, 1)]) []) 97 = some [false] ∧
    ¬ properPrefixOf [false] [true] :=
  ⟨by decide, codes_prefix_free [(97, 1), (256, 1)] (by decide) (by decide) 97 256
    [false] [true] (by decide) (by decide) (by decide)⟩

/-- Claim C6 (evidence of the divergence): the symbol 98 is absent
from the code table of the tree built from {97 ↦ 1, sentinel ↦ 1},
yet `encodeFile` does not fail: `Map::operator[]` hands it the empty
code, so the byte contributes no bits and the output equals the
encoding of the empty input (just the sentinel's code `[true]`). -/
theorem encode_missing_symbol_silently_dropped :
    mapLookup (fillMap [] (buildEncodingTree [(97, 1), (256, 1)]) []) 98 = none ∧
    encodeFile [98] (buildEncodingTree [(97, 1), (256, 1)]) = [true] := by
  constructor
  · decide
  · decide

/-- Claim C7 (evidence of the divergence): decoding an empty (fully
truncated) bit channel with the tree built from {97 ↦ 1, sentinel ↦ 1}
terminates successfully with empty output — the exhausted channel's
EOF sentinel is coerced to the bit 1, which walks to the sentinel
leaf — instead of reporting a truncated-stream error. -/
theorem decode_truncated_terminates_silently :
    decodeFile (buildEncodingTree [(97, 1), (256, 1)]) [] 2 = some [] := by
  decide

/-- Counterexample to C8 as stated: a single-entry table (empty input)
yields a single-leaf tree and the sentinel's code is the EMPTY bit
sequence. -/
theorem single_symbol_code_empty :
    mapLookup (fillMap [] (buildEncodingTree [(256, 1)]) []) 256 = some [] := by
  decide

/-- Claim C8 as amended: for tables with at least two entries, every
symbol of the table receives a (finite) non-empty code; with exactly
one entry the symbol's code is the empty sequence. -/
theorem codes_nonempty_of_two_entries (T : List (Nat × Nat)) (hwf : mapWF T)
    (h2 : 2 ≤ T.length) (c : Nat) (hc : mapContainsKey T c = true) :
    ∃ p, mapLookup (fillMap [] (buildEncodingTree T) []) c = some p ∧ p ≠ [] := by
  have hleaf := mem_leafChars_buildEncodingTree hc
  obtain ⟨p, hp⟩ := Option.isSome_iff_exists.mp (fillMap_domain _ [] [] c hleaf)
  refine ⟨p, hp, ?_⟩
  obtain ⟨w, z, o, hroot, hz, ho⟩ := buildLoop_internal (fillQueue T).length (fillQueue T)
    rfl (by rw [fillQueue_length]; exact h2)
    (by
      intro e he
      obtain ⟨a, _, hae⟩ := fillQueue_mem he
      simp [hae])
  rcases fillMap_lookup _ _ _ _ _ hp with h | h
  · simp [mapLookup] at h
  · obtain ⟨p', hp', hlt⟩ := h
    rw [List.nil_append] at hp'
    subst hp'
    intro hpnil
    subst hpnil
    have hroot2 : buildEncodingTree T = Node.node NOT_A_CHAR w z o := hroot
    rw [hroot2] at hlt
    cases hlt
    exact hz rfl

/-- Witness for the amended C8 at a concrete two-entry table. -/
theorem codes_nonempty_of_two_entries_witness :
    mapContainsKey [(97, 1), (256, 1)] 97 = true ∧
    ∃ p, mapLookup (fillMap [] (buildEncodingTree [(97, 1), (256, 1)]) []) 97 = some p ∧
      p ≠ [] :=
  ⟨by decide, codes_nonempty_of_two_entries [(97, 1), (256, 1)] (by decide) (by decide)
    97 (by decide)⟩

/-! ### Determinism of tree construction (claim C9) -/

/-- The map obtained by inserting the entries of `L` one by one, in
the order given (the only way a `Map` is ever populated). -/
def mapOfList (L : List (Nat × Nat)) : List (Nat × Nat) :=
  L.foldl (fun m e => mapPut m e.1 e.2) []

theorem foldl_put_wf :
    ∀ (L m : List (Nat × Nat)), mapWF m →
      mapWF (L.foldl (fun m e => mapPut m e.1 e.2) m) := by
  intro L
  induction L with
  | nil => intro m h; simpa using h
  | cons e L ih =>
    intro m h
    rw [List.foldl_cons]
    exact ih _ (mapWF_put h _ _)

theorem mapOfList_wf (L : List (Nat × Nat)) : mapWF (mapOfList L) :=
  foldl_put_wf L [] (by simp [mapWF])

theorem foldl_put_lookup_notmem :
    ∀ (L m : List (Nat × Nat)) (k : Nat), k ∉ L.map Prod.fst →
      mapLookup (L.foldl (fun m e => mapPut m e.1 e.2) m) k = mapLookup m k := by
  intro L
  induction L with
  | nil => intro m k _; rfl
  | cons e L ih =>
    intro m k hk
    have h1 : k ≠ e.1 := fun h => hk (by simp [h])
    have h2 : k ∉ L.map Prod.fst := fun h => hk (by simp [h])
    rw [List.foldl_cons, ih _ _ h2, mapLookup_put_ne _ _ h1]

theorem foldl_put_lookup_mem :
    ∀ (L m : List (Nat × Nat)) (k v : Nat),
      (L.map Prod.fst).Nodup → (k, v) ∈ L →
      mapLookup (L.foldl (fun m e => mapPut m e.1 e.2) m) k = some v := by
  intro L
  induction L with
  | nil => intro m k v _ h; simp at h
  | cons e L ih =>
    intro m k v hnd hm
    rw [List.map_cons, List.nodup_cons] at hnd
    rw [List.foldl_cons]
    rcases List.mem_cons.mp hm with h | h
    · have he : e = (k, v) := h.symm
      subst he
      have hknot : k ∉ L.map Prod.fst := hnd.1
      rw [foldl_put_lookup_notmem L _ k hknot, mapLookup_put_self]
    · exact ih _ _ _ hnd.2 h

theorem lookup_mapOfList_iff {L : List (Nat × Nat)} (hnd : (L.map Prod.fst).Nodup)
    (k v : Nat) : mapLookup (mapOfList L) k = some v ↔ (k, v) ∈ L := by
  constructor
  · intro h
    by_cases hk : k ∈ L.map Prod.fst
    · obtain ⟨e, he, hek⟩ := List.mem_map.mp hk
      have he2 : (k, e.2) ∈ L := by
        have : e = (k, e.2) := by
          rw [Prod.ext_iff]
          exact ⟨hek, rfl⟩
        rw [← this]
        exact he
      have := foldl_put_lookup_mem L [] k e.2 hnd he2
      rw [mapOfList] at h
      rw [this] at h
      have := Option.some.inj h
      rw [this] at he2
      exact he2
    · rw [mapOfList, foldl_put_lookup_notmem L [] k hk] at h
      simp [mapLookup] at h
  · intro h
    exact foldl_put_lookup_mem L [] k v hnd h

theorem mapWF_ext :
    ∀ {m₁ m₂ : List (Nat × Nat)}, mapWF m₁ → mapWF m₂ →
      (∀ k, mapLookup m₁ k = mapLookup m₂ k) → m₁ = m₂ := by
  intro m₁
  induction m₁ with
  | nil =>
    intro m₂ _ _ h
    cases m₂ with
    | nil => rfl
    | cons b t₂ =>
      have := h b.1
      simp [mapLookup] at this
  | cons a t₁ ih =>
    intro m₂ hwf1 hwf2 h
    cases m₂ with
    | nil =>
      have := h a.1
      simp [mapLookup] at this
    | cons b t₂ =>
      rw [mapWF, List.pairwise_cons] at hwf1 hwf2
      have hab : a.1 = b.1 := by
        by_contra hne
        have h1 := h a.1
        rw [mapLookup, if_pos rfl, mapLookup, if_neg hne] at h1
        have hba : b.1 < a.1 := hwf2.1 _ (mapLookup_mem h1.symm)
        have h2 := h b.1
        rw [mapLookup, if_neg (by omega), mapLookup, if_pos rfl] at h2
        have hab2 : a.1 < b.1 := hwf1.1 _ (mapLookup_mem h2)
        omega
      have hv : a.2 = b.2 := by
        have h1 := h a.1
        rw [mapLookup, if_pos rfl, mapLookup, if_pos hab] at h1
        exact Option.some.inj h1
      have htail : ∀ k, mapLookup t₁ k = mapLookup t₂ k := by
        intro k
        by_cases hk : k = a.1
        · subst hk
          rw [mapLookup_eq_none (fun e he => by have := hwf1.1 e he; omega),
            mapLookup_eq_none (fun e he => by have := hwf2.1 e he; omega)]
        · have hke := h k
          rw [mapLookup, if_neg hk, mapLookup, if_neg (by rw [← hab]; exact hk)] at hke
          exact hke
      rw [ih hwf1.2 hwf2.2 htail]
      congr 1
      exact Prod.ext_iff.mpr ⟨hab, hv⟩

/-- Claim C9: the built tree is a pure function of the table's
contents.  Feeding the same (duplicate-free) set of entries in any
insertion order produces the same map — the `Map` iterates in key
order and the `PriorityQueue` breaks ties first-in-first-out — hence
structurally identical trees on the compress and decompress sides. -/
theorem buildTree_order_independent (L₁ L₂ : List (Nat × Nat))
    (hperm : L₁.Perm L₂) (hnd : (L₁.map Prod.fst).Nodup) :
    buildEncodingTree (mapOfList L₁) = buildEncodingTree (mapOfList L₂) := by
  have hnd₂ : (L₂.map Prod.fst).Nodup := ((hperm.map Prod.fst).nodup_iff).mp hnd
  have hmaps : mapOfList L₁ = mapOfList L₂ := by
    apply mapWF_ext (mapOfList_wf L₁) (mapOfList_wf L₂)
    intro k
    cases h1 : mapLookup (mapOfList L₁) k with
    | some v =>
      have hm := (lookup_mapOfList_iff hnd k v).mp h1
      exact ((lookup_mapOfList_iff hnd₂ k v).mpr (hperm.mem_iff.mp hm)).symm
    | none =>
      cases h2 : mapLookup (mapOfList L₂) k with
      | none => rfl
      | some v =>
        have hm := (lookup_mapOfList_iff hnd₂ k v).mp h2
        rw [(lookup_mapOfList_iff hnd k v).mpr (hperm.mem_iff.mpr hm)] at h1
        simp at h1
  rw [hmaps]

/-- Witness for C9: opposite insertion orders of the same two entries. -/
theorem buildTree_order_independent_witness :
    [(97, 1), (256, 1)].Perm [(256, 1), (97, 1)] ∧
    buildEncodingTree (mapOfList [(97, 1), (256, 1)]) =
      buildEncodingTree (mapOfList [(256, 1), (97, 1)]) :=
  ⟨List.Perm.swap (256, 1) (97, 1) [],
    buildTree_order_independent [(97, 1), (256, 1)] [(256, 1), (97, 1)]
      (List.Perm.swap (256, 1) (97, 1) []) (by decide)⟩
